import Mathlib

/-!
Verification of the easy-json-viewer core (src/json.js) against its
natural-language specification.

The JavaScript source is shallowly embedded: JS strings become `List Char`,
JSON values become the `Json` inductive, the DOM subtree produced by the
renderer becomes the `Dom` inductive, and the `setTimeout`-based chunked
insertion is modelled by explicit registration lists (delay, list item)
together with a stable sort by delay, which is exactly how the host event
loop orders timer callbacks that were all registered in one synchronous run.
-/

/- ===== Characters and small string utilities ===== -/

/-- Ampersand character. -/
def ampC : Char := Char.ofNat 38

/-- Less-than character. -/
def ltC : Char := Char.ofNat 60

/-- Greater-than character. -/
def gtC : Char := Char.ofNat 62

/-- Apostrophe character. -/
def aposC : Char := Char.ofNat 39

/-- Double-quote character. -/
def quotC : Char := Char.ofNat 34

/-- Backslash character. -/
def bslashC : Char := Char.ofNat 92

/-- Opening square bracket. -/
def lbrkC : Char := Char.ofNat 91

/-- Closing square bracket. -/
def rbrkC : Char := Char.ofNat 93

/-- Opening curly brace. -/
def lcurlC : Char := Char.ofNat 123

/-- Closing curly brace. -/
def rcurlC : Char := Char.ofNat 125

/-- Comma character. -/
def commaC : Char := Char.ofNat 44

/-- Space character. -/
def spaceC : Char := Char.ofNat 32

/-- Colon character. -/
def colonC : Char := Char.ofNat 58

/-- Entity replacement text for the ampersand. -/
def ampEnt : List Char := String.data "&amp;"

/-- Entity replacement text for the less-than sign. -/
def ltEnt : List Char := String.data "&lt;"

/-- Entity replacement text for the greater-than sign. -/
def gtEnt : List Char := String.data "&gt;"

/-- Entity replacement text for the apostrophe. -/
def aposEnt : List Char := String.data "&apos;"

/-- Entity replacement text for the double quote. -/
def quotEnt : List Char := String.data "&quot;"

/-- Model of the JS global single-character regex replace
`s.replace(/c/g, r)`: every occurrence of the character `c` is replaced
by the string `r`, all other characters are kept. -/
def replaceAll (c : Char) (r : List Char) (s : List Char) : List Char :=
  s.flatMap fun x => if x = c then r else [x]

/-- src/json.js line 28: `htmlEscape`, the sequential composition of the
five global replaces, ampersand first (innermost). -/
def htmlEscape (s : List Char) : List Char :=
  replaceAll quotC quotEnt
    (replaceAll aposC aposEnt
      (replaceAll gtC gtEnt
        (replaceAll ltC ltEnt
          (replaceAll ampC ampEnt s))))

/-- Per-character escaping table: what a single character becomes under the
whole `htmlEscape` pipeline.  Used to state that the sequential replaces
never double-escape the ampersands introduced by later replacements. -/
def escapeChar (x : Char) : List Char :=
  if x = ampC then ampEnt
  else if x = ltC then ltEnt
  else if x = gtC then gtEnt
  else if x = aposC then aposEnt
  else if x = quotC then quotEnt
  else [x]

/-- The protocol prefixes checked by `isUrl` (src/json.js line 21). -/
def protocols : List (List Char) :=
  [ String.data "http", String.data "https", String.data "ftp", String.data "ftps"]

/-- src/json.js line 21: `isUrl` checks whether the string starts with one
of the four literal scheme prefixes followed by a colon and two slashes. -/
def isUrl (s : List Char) : Bool :=
  protocols.any fun p => List.isPrefixOf (p ++ String.data "://") s

/- ===== JSON values ===== -/

/-- A parsed JSON value, the renderer's input domain.  JS numbers are
modelled as integers (the renderer only stringifies them); object entries
are kept in iteration order as `Object.entries` yields them. -/
inductive Json where
  | null : Json
  | num (n : Int) : Json
  | bool (b : Bool) : Json
  | str (s : List Char) : Json
  | arr (items : List Json) : Json
  | obj (entries : List (List Char × Json)) : Json

/-- JS truthiness of a JSON value (used by the duck-typed
`json.isLosslessNumber` probe). -/
def truthy : Json → Bool
  | .null => false
  | .num n => decide (n ≠ 0)
  | .bool b => b
  | .str s => !s.isEmpty
  | .arr _ => true
  | .obj _ => true

/-- src/json.js line 14: `isCollapsible` is true exactly for objects and
arrays with at least one key or item. -/
def isCollapsibleJ : Json → Bool
  | .arr [] => false
  | .arr (_ :: _) => true
  | .obj [] => false
  | .obj (_ :: _) => true
  | _ => false

/-- Duck-typed big-number probe of src/json.js line 209: a plain parsed
JSON object has no `toExponential` function, so only a truthy
`isLosslessNumber` property can make the test succeed. -/
def losslessLike : List (List Char × Json) → Bool
  | [] => false
  | e :: es =>
    if e.1 = String.data "isLosslessNumber" then truthy e.2 else losslessLike es

/- ===== chunkArr: the chunking loop of src/json.js lines 65-69 ===== -/

/-- Model of `arr.slice(start, stop)` (JS semantics: negative indices count
from the end, the result is clamped to the array bounds). -/
def jsSlice (arr : List α) (start stop : Int) : List α :=
  let len : Int := arr.length
  let s : Int := if start < 0 then max (len + start) 0 else min start len
  let e : Int := if stop < 0 then max (len + stop) 0 else min stop len
  (arr.drop s.toNat).take (e - s).toNat

/-- The loop of `chunkArr`: `for (let i = 0; i < arr.length; i += size)
chunks.push(arr.slice(i, i + size))`.  The `fuel` argument bounds the
number of iterations we are willing to unfold; `none` means the loop did
not finish within `fuel` iterations. -/
def chunkLoop (arr : List α) (size : Int) :
    Nat → Int → List (List α) → Option (List (List α))
  | 0, _, _ => none
  | fuel + 1, i, acc =>
    if i < (arr.length : Int) then
      chunkLoop arr size fuel (i + size) (acc ++ [jsSlice arr i (i + size)])
    else
      some acc

/-- src/json.js lines 65-69: `chunkArr(arr, size)`.  For `size > 0` the
loop runs at most `arr.length` iterations, so `arr.length + 1` fuel always
suffices (theorem `chunkArr_pos`); for `size ≤ 0` on a non-empty array the
loop index never reaches `arr.length` and the loop never exits
(theorem `chunkLoop_diverges`). -/
def chunkArr (arr : List α) (size : Int) : Option (List (List α)) :=
  chunkLoop arr size (arr.length + 1) 0 []

/-- `chunkArr arr size` terminates: some amount of fuel makes the loop
finish.  For `size ≤ 0` and non-empty `arr` this is false. -/
def ChunkTerminates (arr : List α) (size : Int) : Prop :=
  ∃ fuel out, chunkLoop arr size fuel 0 [] = some out

/-- Reference chunking function: successive `take size` groups.  Shown
equal to `chunkArr` for positive sizes in `chunkArr_pos`; fueled so that it
reduces by kernel computation (`chunksPosF_fuel` shows fuel irrelevance). -/
def chunksPosF : Nat → List α → Nat → List (List α)
  | 0, _, _ => []
  | fuel + 1, l, size =>
    if l.isEmpty ∨ size = 0 then []
    else l.take size :: chunksPosF fuel (l.drop size) size

/-- Successive `take size` groups of a list (empty for `size = 0`). -/
def chunksPos (l : List α) (size : Nat) : List (List α) :=
  chunksPosF (l.length + 1) l size

/-- Total number of items over all chunks, as accumulated by the `count`
variable of `json2html` (src/json.js lines 185, 190, 196, 219, 222). -/
def countItems : List (List α) → Nat
  | [] => 0
  | c :: cs => c.length + countItems cs

/- ===== DOM model ===== -/

/-- A DOM node: either a text node or an element.  `classes` models the
class list, `href`/`blank` model the anchor attributes set by `appendA`
(`blank` is `target="_blank"`).  An element whose `textContent` is set to a
string `s` is represented with children `[Dom.text s]`. -/
inductive Dom where
  | text (s : List Char) : Dom
  | el (tag : List Char) (classes : List (List Char)) (href : Option (List Char))
      (blank : Bool) (children : List Dom) : Dom

mutual

/-- Concatenated text content of a DOM node (`textContent`): the leaf text
nodes in DOM order with all markup stripped. -/
def stripDom : Dom → List Char
  | .text s => s
  | .el _ _ _ _ cs => stripList cs

/-- Concatenated text content of a list of sibling DOM nodes. -/
def stripList : List Dom → List Char
  | [] => []
  | d :: ds => stripDom d ++ stripList ds

end

/-- Whether a DOM node is an element carrying the given class. -/
def hasClass (d : Dom) (c : List Char) : Bool :=
  match d with
  | .text _ => false
  | .el _ cls _ _ _ => cls.contains c

/-- Whether a DOM node is an element carrying the first class but not the
second one. -/
def hasClassWithout (d : Dom) (c withoutC : List Char) : Bool :=
  hasClass d c && !hasClass d withoutC

/- ===== Render configuration (src/json.js line 248) ===== -/

/-- The options record of `byJSONviewer`. -/
structure Options where
  collapsed : Bool
  rootCollapsable : Bool
  withQuotes : Bool
  withLinks : Bool
  bigNumbers : Bool
  chunkSize : Int
  chunkLatency : Int

/-- The defaults merged in by `byJSONviewer` (src/json.js line 248):
`collapsed:false, rootCollapsable:true, withQuotes:true, withLinks:true,
bigNumbers:false, chunkSize:999, chunkLatency:33`. -/
def defaultOptions : Options :=
  ⟨false, true, true, true, false, 999, 33⟩

/- ===== Class, tag and text constants of the renderer ===== -/

/-- Class marking toggle controls. -/
def toggleCls : List Char := String.data "byJSONtoggle"

/-- Class marking nested containers (the ol/ul holding a container's
children). -/
def nestCls : List Char := String.data "byJSONnest"

/-- Class marking placeholder-summary anchors. -/
def placeholderCls : List Char := String.data "byJSONplaceholder"

/-- Class marking literal leaf spans. -/
def literalCls : List Char := String.data "byJSONliteral"

/-- Class marking string leaf spans and links. -/
def stringCls : List Char := String.data "byJSONstring"

/-- The collapsed-state indicator class. -/
def collapsedCls : List Char := String.data "collapsed"

/-- Default href of `appendA`. -/
def jsHref : List Char := String.data "javascript:;"

/-- Tag name of anchors. -/
def aTag : List Char := String.data "a"

/-- Tag name of spans. -/
def spanTag : List Char := String.data "span"

/-- Tag name of ordered lists (array nested-containers). -/
def olTag : List Char := String.data "ol"

/-- Tag name of unordered lists (object nested-containers). -/
def ulTag : List Char := String.data "ul"

/-- Tag name of list items. -/
def liTag : List Char := String.data "li"

/-- `appendSPAN` (src/json.js lines 132-137): a span with the given class
and text content. -/
def mkSpan (cls : List Char) (text : List Char) : Dom :=
  Dom.el spanTag [cls] none false [Dom.text text]

/-- The toggle anchor created by `appendA(li, 'byJSONtoggle')`
(src/json.js line 150): empty text, default href, no target. -/
def toggleA : Dom := Dom.el aTag [toggleCls] (some jsHref) false [Dom.text []]

/-- Placeholder text `` `${count} item${count > 1 ? "s" : ""}` ``
(src/json.js lines 203 and 229). -/
def countText (n : Nat) : List Char :=
  (toString n).data ++ String.data " item" ++ (if 1 < n then [Char.ofNat 115] else [])

/-- The placeholder-summary anchor appended by json2html
(src/json.js lines 203 and 229). -/
def phNode (n : Nat) : Dom :=
  Dom.el aTag [placeholderCls] (some jsHref) false [Dom.text (countText n)]

/-- Key representation for object entries (src/json.js line 224):
`options.withQuotes ? `"${htmlEscape(key)}"` : htmlEscape(key)`. -/
def keyRepr (opts : Options) (key : List Char) : List Char :=
  if opts.withQuotes then [quotC] ++ htmlEscape key ++ [quotC] else htmlEscape key

/- ===== List items and the timer queue ===== -/

/-- The list item built by `appendLI` (src/json.js lines 148-155) for an
array element: optional toggle anchor if the item is collapsible, the
nodes json2html appends for the item, and a trailing comma text node
unless `isLast`.  `r` carries `(isCollapsible item, rendered children)`. -/
def mkLiArr (r : Bool × List Dom) (isLast : Bool) : Dom :=
  Dom.el liTag [] none false
    ((if r.1 then [toggleA] else []) ++ r.2 ++ (if isLast then [] else [Dom.text [commaC]]))

/-- The list item built by `appendLI` for an object entry (`isObj` true):
optional toggle anchor, the `key: ` text node, the value's nodes and the
optional trailing comma. -/
def mkLiObj (opts : Options) (key : List Char) (r : Bool × List Dom) (isLast : Bool) : Dom :=
  Dom.el liTag [] none false
    ((if r.1 then [toggleA] else []) ++ [Dom.text (keyRepr opts key ++ [colonC, spaceC])]
      ++ r.2 ++ (if isLast then [] else [Dom.text [commaC]]))

/-- One chunk's registrations in the array branch (src/json.js lines
189-193): for the chunk at index `i`, the item at in-chunk index `j` is
scheduled with delay `options.chunkLatency * (i + j)` and last-item flag
`j >= chunk.length` (`clen` is `chunk.length`). -/
def liRowArr (latency : Int) (i clen : Nat) : Nat → List (Bool × List Dom) → List (Int × Dom)
  | _, [] => []
  | j, r :: rs =>
    (latency * ((i : Int) + (j : Int)), mkLiArr r (decide (clen ≤ j))) :: liRowArr latency i clen (j + 1) rs

/-- All registrations of the array branch (src/json.js lines 186-201),
chunk after chunk, starting at chunk index `i`.  (The `else` branch of the
source for a non-array chunk is dead code: `chunkArr` only produces
arrays.) -/
def regsArr (latency : Int) : Nat → List (List (Bool × List Dom)) → List (Int × Dom)
  | _, [] => []
  | i, c :: cs => liRowArr latency i c.length 0 c ++ regsArr latency (i + 1) cs

/-- One chunk's registrations in the object branch (src/json.js lines
220-227): the entry at in-chunk index `i` is scheduled with delay
`options.chunkLatency * i` (note: no chunk-index term) and last-entry flag
`i >= chunk.length`. -/
def liRowObj (opts : Options) (clen : Nat) :
    Nat → List (List Char × (Bool × List Dom)) → List (Int × Dom)
  | _, [] => []
  | j, e :: es =>
    (opts.chunkLatency * (j : Int), mkLiObj opts e.1 e.2 (decide (clen ≤ j))) :: liRowObj opts clen (j + 1) es

/-- All registrations of the object branch, chunk after chunk. -/
def regsObj (opts : Options) : List (List (List Char × (Bool × List Dom))) → List (Int × Dom)
  | [] => []
  | c :: cs => liRowObj opts c.length 0 c ++ regsObj opts cs

/-- Stable insertion into a timer queue sorted by delay: a newly considered
earlier registration goes before every strictly later-delayed entry but
after none of the equal-delay ones that were registered before it. -/
def insertTimer (x : Int × Dom) : List (Int × Dom) → List (Int × Dom)
  | [] => [x]
  | y :: ys => if x.1 ≤ y.1 then x :: y :: ys else y :: insertTimer x ys

/-- The order in which the host event loop fires timer callbacks that were
all registered in one synchronous run: stable sort by delay (equal delays
fire in registration order). -/
def timerSort : List (Int × Dom) → List (Int × Dom)
  | [] => []
  | x :: xs => insertTimer x (timerSort xs)

/- ===== The tree renderer (json2html, src/json.js lines 164-232) ===== -/

/-- Assembly of the array branch (src/json.js lines 175-205) given the
per-item data `(isCollapsible item, nodes json2html appends for item)` in
source order: chunk via `chunkSize`, early-return the text `[]` when there
are no chunks, otherwise emit `[`, the `ol.byJSONnest` whose children are
the scheduled list items in the order the timer queue fires them, the
placeholder anchor with the synchronously accumulated total count (chunks
of a non-empty array always form a collapsible value), and `]`. -/
def assembleArr (opts : Options) (rendered : List (Bool × List Dom)) : List Dom :=
  let chunks := chunksPos rendered opts.chunkSize.toNat
  if chunks.isEmpty then [Dom.text [lbrkC, rbrkC]]
  else
    [Dom.text [lbrkC],
     Dom.el olTag [nestCls] none false
       ((timerSort (regsArr opts.chunkLatency 0 chunks)).map Prod.snd)]
    ++ (if chunks.isEmpty then [] else [phNode (countItems chunks)])
    ++ [Dom.text [rbrkC]]

/-- Assembly of the object branch (src/json.js lines 207-231) given the
per-entry data `(key, (isCollapsible value, nodes for value))` in
`Object.entries` order; same shell shape with `{`/`}` and a `ul`. -/
def assembleObj (opts : Options) (rendered : List (List Char × (Bool × List Dom))) : List Dom :=
  let chunks := chunksPos rendered opts.chunkSize.toNat
  if chunks.isEmpty then [Dom.text [lcurlC, rcurlC]]
  else
    [Dom.text [lcurlC],
     Dom.el ulTag [nestCls] none false
       ((timerSort (regsObj opts chunks)).map Prod.snd)]
    ++ (if chunks.isEmpty then [] else [phNode (countItems chunks)])
    ++ [Dom.text [rcurlC]]

mutual

/-- The nodes `json2html(element, json, options)` appends to `element`
(src/json.js lines 164-232), with the nested containers already holding
the children that the scheduled `appendLI` callbacks eventually insert,
in timer-queue order.  The model is faithful for `chunkSize ≥ 1`; for
`chunkSize ≤ 0` and a non-empty container the real `chunkArr` never
returns (theorem `c6_counterexample`), so there is nothing to model.
`json2html` calls `chunkArr`; for positive sizes
`chunkArr l size = some (chunksPos l size.toNat)` (theorem `c7_chunkArr`),
which is the form used here. -/
def renderValue (opts : Options) : Json → List Dom
  | .null => [mkSpan literalCls (String.data "null")]
  | .num n => [mkSpan literalCls (toString n).data]
  | .bool b => [mkSpan literalCls (toString b).data]
  | .str s =>
    if opts.withLinks && isUrl (htmlEscape s) then
      [Dom.el aTag [stringCls] (some (htmlEscape s)) true
        [Dom.text ([quotC] ++ htmlEscape s ++ [quotC])]]
    else
      [mkSpan stringCls ([quotC] ++ htmlEscape s ++ [quotC])]
  | .arr items => assembleArr opts (renderList opts items)
  | .obj entries =>
    if opts.bigNumbers && losslessLike entries then
      [mkSpan literalCls (String.data "[object Object]")]
    else
      assembleObj opts (renderEntries opts entries)

/-- Per-item data for an array's elements, in source order. -/
def renderList (opts : Options) : List Json → List (Bool × List Dom)
  | [] => []
  | j :: js => (isCollapsibleJ j, renderValue opts j) :: renderList opts js

/-- Per-entry data for an object's entries, in `Object.entries` order. -/
def renderEntries (opts : Options) : List (List Char × Json) → List (List Char × (Bool × List Dom))
  | [] => []
  | e :: es => (e.1, (isCollapsibleJ e.2, renderValue opts e.2)) :: renderEntries opts es

end

/-- The children of the target element after `byJSONviewer(element, json,
options)` (src/json.js lines 247-255): the root toggle anchor when the
root is collapsible and `rootCollapsable` is set, followed by the nodes
json2html appends. -/
def viewerDom (opts : Options) (json : Json) : List Dom :=
  (if opts.rootCollapsable && isCollapsibleJ json then [toggleA] else [])
    ++ renderValue opts json

/- ===== Basic lemmas about the chunker ===== -/

/-- The fuel of `chunksPosF` is irrelevant once it exceeds the list
length. -/
theorem chunksPosF_congr {α : Type} (s : Nat) :
    ∀ (f g : Nat) (l : List α), l.length < f → l.length < g →
      chunksPosF f l s = chunksPosF g l s := by
  intro f
  induction f with
  | zero => intro g l hf _; omega
  | succ f ih =>
    intro g l hf hg
    cases g with
    | zero => omega
    | succ g =>
      simp only [chunksPosF]
      by_cases h : l.isEmpty ∨ s = 0
      · rw [if_pos h, if_pos h]
      · rw [if_neg h, if_neg h]
        have hl : l ≠ [] := by
          intro hnil
          exact h (Or.inl (by simp [hnil]))
        have hs : s ≠ 0 := fun hz => h (Or.inr hz)
        have hlen : (l.drop s).length < l.length := by
          have := List.length_pos.mpr hl
          simp only [List.length_drop]
          omega
        rw [ih g (l.drop s) (by omega) (by omega)]

/-- One-step unfolding of `chunksPos`. -/
theorem chunksPos_eq {α : Type} (l : List α) (s : Nat) :
    chunksPos l s =
      if l.isEmpty ∨ s = 0 then [] else l.take s :: chunksPos (l.drop s) s := by
  show chunksPosF (l.length + 1) l s = _
  rw [chunksPosF]
  by_cases h : l.isEmpty ∨ s = 0
  · rw [if_pos h, if_pos h]
  · rw [if_neg h, if_neg h]
    have hl : l ≠ [] := by
      intro hnil
      exact h (Or.inl (by simp [hnil]))
    have hs : s ≠ 0 := fun hz => h (Or.inr hz)
    have := List.length_pos.mpr hl
    have hlen : (l.drop s).length < l.length := by
      simp only [List.length_drop]; omega
    have hcongr :
        chunksPosF l.length (l.drop s) s = chunksPosF ((l.drop s).length + 1) (l.drop s) s :=
      chunksPosF_congr s l.length ((l.drop s).length + 1) (l.drop s) hlen (Nat.lt_succ_self _)
    rw [hcongr]
    rfl

/-- A non-empty list yields at least one chunk. -/
theorem chunksPos_ne_nil {α : Type} {l : List α} {s : Nat} (hl : l ≠ []) (hs : s ≠ 0) :
    chunksPos l s ≠ [] := by
  rw [chunksPos_eq, if_neg]
  · exact List.cons_ne_nil _ _
  · rintro (h | h)
    · exact hl (List.isEmpty_iff.mp h)
    · exact hs h

/-- Concatenating the chunks gives back the original list. -/
theorem chunksPos_flatten {α : Type} (s : Nat) (hs : 0 < s) :
    ∀ (l : List α), (chunksPos l s).flatten = l := by
  have main : ∀ (n : Nat) (l : List α), l.length ≤ n → (chunksPos l s).flatten = l := by
    intro n
    induction n with
    | zero =>
      intro l h
      have : l = [] := List.eq_nil_of_length_eq_zero (by omega)
      subst this
      rw [chunksPos_eq]
      simp
    | succ n ih =>
      intro l h
      rw [chunksPos_eq]
      by_cases he : l.isEmpty ∨ s = 0
      · rcases he with he | he
        · rw [if_pos (Or.inl he)]
          rw [List.isEmpty_iff.mp he]
          rfl
        · omega
      · rw [if_neg he]
        have hl : l ≠ [] := by
          intro hnil
          exact he (Or.inl (by simp [hnil]))
        have := List.length_pos.mpr hl
        rw [List.flatten_cons, ih (l.drop s) (by simp only [List.length_drop]; omega)]
        exact List.take_append_drop s l
  intro l
  exact main l.length l le_rfl

/-- The `count` accumulated over the chunks is the total item count. -/
theorem countItems_eq_flatten_length {α : Type} (cs : List (List α)) :
    countItems cs = cs.flatten.length := by
  induction cs with
  | nil => rfl
  | cons c cs ih => simp [countItems, ih]

/-- The `count` shown in the placeholder equals the length of the chunked
list. -/
theorem countItems_chunksPos {α : Type} (s : Nat) (hs : 0 < s) (l : List α) :
    countItems (chunksPos l s) = l.length := by
  rw [countItems_eq_flatten_length, chunksPos_flatten s hs]

/-- Every chunk is non-empty and no longer than the requested size. -/
theorem chunksPos_sizes {α : Type} (s : Nat) (hs : 0 < s) :
    ∀ (l : List α), ∀ c ∈ chunksPos l s, c ≠ [] ∧ c.length ≤ s := by
  have main : ∀ (n : Nat) (l : List α), l.length ≤ n →
      ∀ c ∈ chunksPos l s, c ≠ [] ∧ c.length ≤ s := by
    intro n
    induction n with
    | zero =>
      intro l h c hc
      have : l = [] := List.eq_nil_of_length_eq_zero (by omega)
      subst this
      rw [chunksPos_eq] at hc
      simp at hc
    | succ n ih =>
      intro l h c hc
      rw [chunksPos_eq] at hc
      by_cases he : l.isEmpty ∨ s = 0
      · rw [if_pos he] at hc
        simp at hc
      · rw [if_neg he] at hc
        have hl : l ≠ [] := by
          intro hnil
          exact he (Or.inl (by simp [hnil]))
        have := List.length_pos.mpr hl
        rcases List.mem_cons.mp hc with rfl | hc
        · constructor
          · intro hnil
            have := congrArg List.length hnil
            simp only [List.length_take, List.length_nil] at this
            omega
          · simp only [List.length_take]
            omega
        · exact ih (l.drop s) (by simp only [List.length_drop]; omega) c hc
  intro l
  exact main l.length l le_rfl

/-- Every chunk except possibly the last has exactly the requested size. -/
theorem chunksPos_dropLast_sizes {α : Type} (s : Nat) (hs : 0 < s) :
    ∀ (l : List α), ∀ c ∈ (chunksPos l s).dropLast, c.length = s := by
  have main : ∀ (n : Nat) (l : List α), l.length ≤ n →
      ∀ c ∈ (chunksPos l s).dropLast, c.length = s := by
    intro n
    induction n with
    | zero =>
      intro l h c hc
      have : l = [] := List.eq_nil_of_length_eq_zero (by omega)
      subst this
      rw [chunksPos_eq] at hc
      simp at hc
    | succ n ih =>
      intro l h c hc
      rw [chunksPos_eq] at hc
      by_cases he : l.isEmpty ∨ s = 0
      · rw [if_pos he] at hc
        simp at hc
      · rw [if_neg he] at hc
        have hl : l ≠ [] := by
          intro hnil
          exact he (Or.inl (by simp [hnil]))
        have := List.length_pos.mpr hl
        by_cases hrest : l.drop s = []
        · rw [hrest] at hc
          rw [chunksPos_eq] at hc
          simp at hc
        · have hne : chunksPos (l.drop s) s ≠ [] := by
            apply chunksPos_ne_nil hrest
            omega
          rw [List.dropLast_cons_of_ne_nil hne] at hc
          rcases List.mem_cons.mp hc with rfl | hc
          · have hlong : s < l.length := by
              by_contra hle
              exact hrest (List.drop_eq_nil_of_le (by omega))
            simp only [List.length_take]
            omega
          · exact ih (l.drop s) (by simp only [List.length_drop]; omega) c hc
  intro l
  exact main l.length l le_rfl

/- ===== chunkArr for positive sizes and divergence for size ≤ 0 ===== -/

/-- For a natural start index and a positive size, the JS slice
`arr.slice(n, n + size)` is `take size` of `drop n`. -/
theorem jsSlice_nat {α : Type} (arr : List α) (n : Nat) (size : Int) (hs : 0 < size) :
    jsSlice arr (n : Int) ((n : Int) + size) = (arr.drop n).take size.toNat := by
  simp only [jsSlice]
  have h0 : ¬((n : Int) < 0) := by omega
  have h1 : ¬((n : Int) + size < 0) := by omega
  rw [if_neg h0, if_neg h1]
  by_cases hn : n < arr.length
  · have hmin : min (n : Int) (arr.length : Int) = (n : Int) := by omega
    rw [hmin]
    have htn : ((n : Int)).toNat = n := by omega
    rw [htn]
    by_cases hfit : (n : Int) + size ≤ (arr.length : Int)
    · have : min ((n : Int) + size) (arr.length : Int) = (n : Int) + size := by omega
      rw [this]
      congr 1
      omega
    · have hm : min ((n : Int) + size) (arr.length : Int) = (arr.length : Int) := by omega
      rw [hm]
      have hlen : ((arr.length : Int) - (n : Int)).toNat = arr.length - n := by omega
      rw [hlen]
      have hdl : (arr.drop n).length = arr.length - n := by simp
      rw [List.take_of_length_le (by omega), List.take_of_length_le (by omega)]
  · have hge : arr.length ≤ n := by omega
    have hmin : min (n : Int) (arr.length : Int) = (arr.length : Int) := by omega
    rw [hmin]
    have hd1 : arr.drop ((arr.length : Int)).toNat = [] :=
      List.drop_eq_nil_of_le (by omega)
    have hd2 : arr.drop n = [] := List.drop_eq_nil_of_le hge
    rw [hd1, hd2]
    simp

/-- For a positive size and enough fuel, the chunking loop starting at a
natural index `n` returns the accumulator followed by the chunks of the
remaining suffix. -/
theorem chunkLoop_pos {α : Type} (arr : List α) (size : Int) (hs : 0 < size) :
    ∀ (fuel n : Nat) (acc : List (List α)), arr.length - n < fuel →
      chunkLoop arr size fuel (n : Int) acc =
        some (acc ++ chunksPos (arr.drop n) size.toNat) := by
  intro fuel
  induction fuel with
  | zero => intro n acc h; omega
  | succ fuel ih =>
    intro n acc h
    rw [chunkLoop]
    by_cases hn : (n : Int) < (arr.length : Int)
    · rw [if_pos hn]
      have hn' : n < arr.length := by omega
      have hst : 0 < size.toNat := by omega
      have hcast : (n : Int) + size = ((n + size.toNat : Nat) : Int) := by omega
      rw [hcast, ih (n + size.toNat) _ (by omega)]
      congr 1
      rw [chunksPos_eq (arr.drop n)]
      have hne : ¬((arr.drop n).isEmpty ∨ size.toNat = 0) := by
        rintro (hne | hne)
        · have := List.isEmpty_iff.mp hne
          have := congrArg List.length this
          simp at this
          omega
        · omega
      rw [if_neg hne]
      rw [← hcast, jsSlice_nat arr n size hs]
      have hdd : (arr.drop n).drop size.toNat = arr.drop (n + size.toNat) := by
        rw [List.drop_drop]
      rw [hdd]
      simp [List.append_assoc]
    · rw [if_neg hn]
      have : arr.drop n = [] := List.drop_eq_nil_of_le (by omega)
      rw [this, chunksPos_eq]
      simp

/-- src/json.js lines 65-69: for every positive chunk size, `chunkArr`
terminates and produces exactly the successive `take size` groups. -/
theorem chunkArr_pos {α : Type} (arr : List α) (size : Int) (hs : 0 < size) :
    chunkArr arr size = some (chunksPos arr size.toNat) := by
  unfold chunkArr
  have h0 : (0 : Int) = ((0 : Nat) : Int) := rfl
  rw [h0, chunkLoop_pos arr size hs (arr.length + 1) 0 [] (by omega)]
  simp

/-- For `size ≤ 0` on a non-empty array the loop index stays at or below
zero, so the loop guard `i < arr.length` never becomes false: no amount of
fuel makes the loop finish. -/
theorem chunkLoop_diverges {α : Type} (arr : List α) (size : Int)
    (hs : size ≤ 0) (h : arr ≠ []) :
    ∀ (fuel : Nat) (i : Int), i ≤ 0 → ∀ (acc : List (List α)),
      chunkLoop arr size fuel i acc = none := by
  intro fuel
  induction fuel with
  | zero => intro i hi acc; rfl
  | succ fuel ih =>
    intro i hi acc
    rw [chunkLoop]
    have hlen : 0 < arr.length := List.length_pos.mpr h
    have : i < (arr.length : Int) := by omega
    rw [if_pos this]
    exact ih (i + size) (by omega) _

/- ===== htmlEscape lemmas ===== -/

/-- A global single-character replace distributes over concatenation. -/
theorem replaceAll_append (c : Char) (r a b : List Char) :
    replaceAll c r (a ++ b) = replaceAll c r a ++ replaceAll c r b := by
  simp [replaceAll]

/-- `htmlEscape` distributes over concatenation. -/
theorem htmlEscape_append (a b : List Char) :
    htmlEscape (a ++ b) = htmlEscape a ++ htmlEscape b := by
  simp [htmlEscape, replaceAll_append]

/-- On a single character the five sequential replaces act exactly like
the per-character table: in particular the ampersands inside the
replacement entities are never re-escaped. -/
theorem htmlEscape_single (x : Char) : htmlEscape [x] = escapeChar x := by
  by_cases h1 : x = ampC
  · subst h1; decide
  · by_cases h2 : x = ltC
    · subst h2; decide
    · by_cases h3 : x = gtC
      · subst h3; decide
      · by_cases h4 : x = aposC
        · subst h4; decide
        · by_cases h5 : x = quotC
          · subst h5; decide
          · simp [htmlEscape, replaceAll, escapeChar, h1, h2, h3, h4, h5]

/-- The whole pipeline is the per-character escape map: each input
character is escaped exactly once, independently of its neighbours. -/
theorem htmlEscape_flatMap (s : List Char) : htmlEscape s = s.flatMap escapeChar := by
  induction s with
  | nil => rfl
  | cons x s ih =>
    have hx : x :: s = [x] ++ s := rfl
    rw [hx, htmlEscape_append, htmlEscape_single, ih, List.flatMap_append]
    simp [List.flatMap_cons]

/-- Characters of the escaped string either occur in the input or belong
to one of the five entity replacement strings.  In particular `htmlEscape`
introduces no backslash. -/
theorem htmlEscape_no_backslash {s : List Char} (h : bslashC ∉ s) :
    bslashC ∉ htmlEscape s := by
  rw [htmlEscape_flatMap]
  intro hmem
  rcases List.mem_flatMap.mp hmem with ⟨x, hx, hbx⟩
  by_cases h1 : x = ampC
  · subst h1; revert hbx; decide
  · by_cases h2 : x = ltC
    · subst h2; revert hbx; decide
    · by_cases h3 : x = gtC
      · subst h3; revert hbx; decide
      · by_cases h4 : x = aposC
        · subst h4; revert hbx; decide
        · by_cases h5 : x = quotC
          · subst h5; revert hbx; decide
          · simp only [escapeChar, h1, h2, h3, h4, h5, if_false, List.mem_singleton] at hbx
            subst hbx
            exact h hx

/- ===== Chunking of constant lists (for the 2500-item scenario) ===== -/

/-- Chunking step on a long constant list. -/
theorem chunksPos_replicate_step {α : Type} (m s : Nat) (hs : 0 < s) (hm : s < m) (a : α) :
    chunksPos (List.replicate m a) s =
      List.replicate s a :: chunksPos (List.replicate (m - s) a) s := by
  rw [chunksPos_eq, if_neg]
  · rw [List.take_replicate, List.drop_replicate]
    congr 2
    omega
  · rintro (h | h)
    · have := List.isEmpty_iff.mp h
      have := congrArg List.length this
      simp at this
      omega
    · omega

/-- Chunking a short non-empty constant list gives a single chunk. -/
theorem chunksPos_replicate_last {α : Type} (m s : Nat) (hs : 0 < s) (hm0 : 0 < m)
    (hm : m ≤ s) (a : α) :
    chunksPos (List.replicate m a) s = [List.replicate m a] := by
  rw [chunksPos_eq, if_neg]
  · rw [List.take_replicate, List.drop_replicate]
    have h1 : min s m = m := by omega
    have h2 : m - s = 0 := by omega
    rw [h1, h2]
    rw [show List.replicate 0 a = ([] : List α) from rfl, chunksPos_eq]
    simp
  · rintro (h | h)
    · have := List.isEmpty_iff.mp h
      have := congrArg List.length this
      simp at this
      omega
    · omega

/- ===== Claims C6, C7, C9 ===== -/

/-- C6, counterexample: the claim asserts that `chunkArr(arr, size)`
terminates with an empty result for every `size ≤ 0`; but on the
non-empty array `[1]` with `size = 0` the loop index never reaches the
array length, so no amount of fuel makes the loop return — `chunkArr`
diverges instead of returning the empty result. -/
theorem c6_counterexample : ¬ ChunkTerminates [(1 : Nat)] 0 := by
  rintro ⟨fuel, out, hout⟩
  rw [chunkLoop_diverges [(1 : Nat)] 0 (by omega) (by simp) fuel 0 (by omega) []] at hout
  exact Option.noConfusion hout

/-- C6, amended: on empty input `chunkArr` returns the empty result for
every size (the loop body never runs), but for `size ≤ 0` on a non-empty
array the `for (let i = 0; i < arr.length; i += size)` loop never
terminates: the index stays at or below zero, so the call diverges rather
than degrading gracefully. -/
theorem c6_chunkArr_empty_or_diverges :
    (∀ size : Int, chunkArr ([] : List Nat) size = some []) ∧
    (∀ (arr : List Nat) (size : Int), arr ≠ [] → size ≤ 0 → ¬ ChunkTerminates arr size) := by
  constructor
  · intro size
    rfl
  · intro arr size h hs
    rintro ⟨fuel, out, hout⟩
    rw [chunkLoop_diverges arr size hs h fuel 0 (by omega) []] at hout
    exact Option.noConfusion hout

/-- C6, witness: the amended theorem applied at concrete inputs. -/
theorem c6_witness :
    chunkArr ([] : List Nat) (-7) = some [] ∧ ¬ ChunkTerminates [(2 : Nat), 3] (-1) :=
  ⟨c6_chunkArr_empty_or_diverges.1 (-7),
   c6_chunkArr_empty_or_diverges.2 [2, 3] (-1) (by simp) (by omega)⟩

/-- C7: for every positive chunk size, `chunkArr` terminates and returns
the ordered chunks whose concatenation is the input, each chunk non-empty
and of length `size` except possibly the last; in particular
`chunkArr [1,2,3,4,5] 2 = [[1,2],[3,4],[5]]`, `chunkArr [] 3 = []`, and a
2500-element array with size 999 yields exactly 3 chunks of sizes
999, 999, 502. -/
theorem c7_chunkArr :
    (∀ (α : Type) (arr : List α) (size : Int), 0 < size →
      ∃ cs, chunkArr arr size = some cs ∧ cs.flatten = arr ∧
        (∀ c ∈ cs.dropLast, c.length = size.toNat) ∧
        (∀ c ∈ cs, c ≠ [] ∧ c.length ≤ size.toNat))
    ∧ chunkArr [1, 2, 3, 4, 5] (2 : Int) = some [[1, 2], [3, 4], [5]]
    ∧ chunkArr ([] : List Nat) (3 : Int) = some []
    ∧ (chunkArr (List.replicate 2500 (0 : Nat)) (999 : Int)).map (fun cs => cs.map List.length)
        = some [999, 999, 502] := by
  refine ⟨?_, by decide, by decide, ?_⟩
  · intro α arr size hs
    have hst : 0 < size.toNat := by omega
    exact ⟨chunksPos arr size.toNat, chunkArr_pos arr size hs,
      chunksPos_flatten size.toNat hst arr,
      chunksPos_dropLast_sizes size.toNat hst arr,
      fun c hc => (chunksPos_sizes size.toNat hst arr c hc)⟩
  · rw [chunkArr_pos _ _ (by omega)]
    have h1 : chunksPos (List.replicate 2500 (0 : Nat)) (999 : Int).toNat =
        [List.replicate 999 0, List.replicate 999 0, List.replicate 502 0] := by
      have e1 := chunksPos_replicate_step (α := Nat) 2500 999 (by omega) (by omega) 0
      have e2 := chunksPos_replicate_step (α := Nat) 1501 999 (by omega) (by omega) 0
      have e3 := chunksPos_replicate_last (α := Nat) 502 999 (by omega) (by omega) (by omega) 0
      norm_num at e1 e2
      rw [show ((999 : Int)).toNat = 999 from rfl, e1, e2, e3]
    rw [h1]
    simp only [Option.map_some', List.map_cons, List.map_nil, List.length_replicate]

/-- C9: `htmlEscape` escapes each of the five special characters to its
entity form with the ampersand replacement applied first, so each input
character is escaped exactly once (the sequential pipeline equals the
independent per-character escape map — no double-escaping of the
ampersands introduced by later replacements); and on the 6-character
string `<a>&"'` it yields the expected entity string. -/
theorem c9_htmlEscape :
    (∀ s : List Char, htmlEscape s = s.flatMap escapeChar)
    ∧ htmlEscape [ltC, Char.ofNat 97, gtC, ampC, quotC, aposC]
        = String.data "&lt;a&gt;&amp;&quot;&apos;" :=
  ⟨htmlEscape_flatMap, by decide⟩

/-- C7, witness: the general part of the theorem applied at a concrete
input. -/
theorem c7_witness :
    ∃ cs, chunkArr [(7 : Nat), 8] (3 : Int) = some cs ∧ cs.flatten = [7, 8] ∧
      (∀ c ∈ cs.dropLast, c.length = (3 : Int).toNat) ∧
      (∀ c ∈ cs, c ≠ [] ∧ c.length ≤ (3 : Int).toNat) :=
  c7_chunkArr.1 Nat [7, 8] 3 (by omega)

/- ===== A JSON text grammar (spec side, for the round-trip claim) ===== -/

/-- Modelled from the spec: the round-trip property speaks of "a valid
textual JSON representation of `v`".  `specParseVal` is a standard
recursive-descent JSON reader over the value domain of `Json` (integer
numbers, as produced by the renderer), tolerating blanks between tokens;
a string `t` is a valid textual representation of `v` iff the reader
consumes all of `t` and yields `v`.  The `fuel` argument only bounds the
recursion depth; every recursive call happens at a strict suffix of the
input after at least one consumed character per two calls, so
`2 * length + 2` fuel (used by `specJsonRead`) is always sufficient. -/
def specSkipBlanks : List Char → List Char
  | [] => []
  | c :: r => if c = spaceC then specSkipBlanks r else c :: r

/-- Greedily read decimal digits. -/
def specTakeDigits : List Char → (List Char × List Char)
  | [] => ([], [])
  | c :: r =>
    if c.isDigit then
      let p := specTakeDigits r
      (c :: p.1, p.2)
    else ([], c :: r)

/-- Numeric value of a digit string. -/
def specDigitsToNat : List Char → Nat → Nat
  | [], acc => acc
  | c :: r, acc => specDigitsToNat r (acc * 10 + (c.toNat - 48))

/-- JSON string escape sequences (sufficient for the renderer's value
domain; `\uXXXX` escapes are not needed to decide the claims below). -/
def specUnescape (c : Char) : Option Char :=
  if c = quotC then some quotC
  else if c = bslashC then some bslashC
  else if c = Char.ofNat 47 then some (Char.ofNat 47)
  else if c = Char.ofNat 110 then some (Char.ofNat 10)
  else if c = Char.ofNat 116 then some (Char.ofNat 9)
  else if c = Char.ofNat 114 then some (Char.ofNat 13)
  else if c = Char.ofNat 98 then some (Char.ofNat 8)
  else if c = Char.ofNat 102 then some (Char.ofNat 12)
  else none

/-- Read the body of a JSON string after the opening quote. -/
def specParseStrBody : List Char → Option (List Char × List Char)
  | [] => none
  | c :: r =>
    if c = quotC then some ([], r)
    else if c = bslashC then
      match r with
      | [] => none
      | e :: r2 =>
        match specUnescape e with
        | none => none
        | some u =>
          match specParseStrBody r2 with
          | none => none
          | some p => some (u :: p.1, p.2)
    else
      match specParseStrBody r with
      | none => none
      | some p => some (c :: p.1, p.2)

mutual

/-- Read one JSON value. -/
def specParseVal : Nat → List Char → Option (Json × List Char)
  | 0, _ => none
  | fuel + 1, s =>
    let t := specSkipBlanks s
    if List.isPrefixOf (String.data "null") t then some (.null, t.drop 4)
    else if List.isPrefixOf (String.data "true") t then some (.bool true, t.drop 4)
    else if List.isPrefixOf (String.data "false") t then some (.bool false, t.drop 5)
    else
      match t with
      | [] => none
      | c :: r =>
        if c = quotC then
          match specParseStrBody r with
          | none => none
          | some p => some (.str p.1, p.2)
        else if c = lbrkC then
          match specSkipBlanks r with
          | c2 :: r2 =>
            if c2 = rbrkC then some (.arr [], r2)
            else
              match specParseItems fuel (c2 :: r2) with
              | none => none
              | some p => some (.arr p.1, p.2)
          | [] => none
        else if c = lcurlC then
          match specSkipBlanks r with
          | c2 :: r2 =>
            if c2 = rcurlC then some (.obj [], r2)
            else
              match specParseMembers fuel (c2 :: r2) with
              | none => none
              | some p => some (.obj p.1, p.2)
          | [] => none
        else if c = Char.ofNat 45 then
          match specTakeDigits r with
          | ([], _) => none
          | (ds, rest) => some (.num (-(specDigitsToNat ds 0 : Int)), rest)
        else if c.isDigit then
          match specTakeDigits (c :: r) with
          | (ds, rest) => some (.num (specDigitsToNat ds 0), rest)
        else none

/-- Read the comma-separated elements of an array up to the closing
bracket. -/
def specParseItems : Nat → List Char → Option (List Json × List Char)
  | 0, _ => none
  | fuel + 1, s =>
    match specParseVal fuel s with
    | none => none
    | some (v, r) =>
      match specSkipBlanks r with
      | [] => none
      | c :: r2 =>
        if c = commaC then
          match specParseItems fuel r2 with
          | none => none
          | some p => some (v :: p.1, p.2)
        else if c = rbrkC then some ([v], r2)
        else none

/-- Read the comma-separated members of an object up to the closing
brace. -/
def specParseMembers : Nat → List Char → Option (List (List Char × Json) × List Char)
  | 0, _ => none
  | fuel + 1, s =>
    match specSkipBlanks s with
    | [] => none
    | c :: r =>
      if c = quotC then
        match specParseStrBody r with
        | none => none
        | some kp =>
          match specSkipBlanks kp.2 with
          | [] => none
          | c2 :: r2 =>
            if c2 = colonC then
              match specParseVal fuel r2 with
              | none => none
              | some (v, r3) =>
                match specSkipBlanks r3 with
                | [] => none
                | c3 :: r4 =>
                  if c3 = commaC then
                    match specParseMembers fuel r4 with
                    | none => none
                    | some p => some ((kp.1, v) :: p.1, p.2)
                  else if c3 = rcurlC then some ([(kp.1, v)], r4)
                  else none
            else none
      else none

end

/-- Modelled from the spec: `t` is a valid textual JSON representation of
`v` iff the JSON reader consumes all of `t` (up to trailing blanks) and
yields `v`. -/
def specJsonRead (t : List Char) : Option Json :=
  match specParseVal (2 * t.length + 2) t with
  | none => none
  | some (v, r) => if specSkipBlanks r = [] then some v else none

/- ===== Timer-queue ordering ===== -/

/-- Whether the delays of a registration list are non-decreasing in
registration order. -/
def keysMonoB : List (Int × Dom) → Bool
  | [] => true
  | [_] => true
  | x :: y :: rest => decide (x.1 ≤ y.1) && keysMonoB (y :: rest)

/-- A registration list with non-decreasing delays fires in registration
order: the stable sort leaves it unchanged. -/
theorem timerSort_eq_of_mono :
    ∀ rs : List (Int × Dom), keysMonoB rs = true → timerSort rs = rs := by
  intro rs
  induction rs with
  | nil => intro _; rfl
  | cons x xs ih =>
    intro h
    cases xs with
    | nil => rfl
    | cons y rest =>
      have hxy : x.1 ≤ y.1 := by
        have := h
        simp only [keysMonoB, Bool.and_eq_true, decide_eq_true_eq] at this
        exact this.1
      have htail : keysMonoB (y :: rest) = true := by
        have := h
        simp only [keysMonoB, Bool.and_eq_true, decide_eq_true_eq] at this
        exact this.2
      show insertTimer x (timerSort (y :: rest)) = x :: y :: rest
      rw [ih htail]
      show (if x.1 ≤ y.1 then x :: y :: rest else y :: insertTimer x rest) = x :: y :: rest
      rw [if_pos hxy]

/-- The delays inside one chunk of the array branch are non-decreasing in
the in-chunk position (`latency * (i + j)` for a fixed chunk index `i`). -/
theorem liRowArr_mono (L : Int) (hL : 0 ≤ L) (i clen : Nat) :
    ∀ (c : List (Bool × List Dom)) (j : Nat),
      keysMonoB (liRowArr L i clen j c) = true := by
  intro c
  induction c with
  | nil => intro j; rfl
  | cons r rs ih =>
    intro j
    cases rs with
    | nil => rfl
    | cons r2 rs2 =>
      show keysMonoB ((L * ((i : Int) + (j : Int)), _) :: (L * ((i : Int) + ((j + 1 : Nat) : Int)), _) :: _) = true
      simp only [keysMonoB, Bool.and_eq_true, decide_eq_true_eq]
      constructor
      · apply mul_le_mul_of_nonneg_left _ hL
        push_cast
        omega
      · exact ih (j + 1)

/-- The delays inside one chunk of the object branch are non-decreasing in
the in-chunk position (`latency * i` for in-chunk index `i`). -/
theorem liRowObj_mono (opts : Options) (hL : 0 ≤ opts.chunkLatency) (clen : Nat) :
    ∀ (c : List (List Char × (Bool × List Dom))) (j : Nat),
      keysMonoB (liRowObj opts clen j c) = true := by
  intro c
  induction c with
  | nil => intro j; rfl
  | cons e es ih =>
    intro j
    cases es with
    | nil => rfl
    | cons e2 es2 =>
      show keysMonoB ((opts.chunkLatency * (j : Int), _) :: (opts.chunkLatency * (((j + 1 : Nat)) : Int), _) :: _) = true
      simp only [keysMonoB, Bool.and_eq_true, decide_eq_true_eq]
      constructor
      · apply mul_le_mul_of_nonneg_left _ hL
        push_cast
        omega
      · exact ih (j + 1)

/- ===== Structure of the rendered output ===== -/

/-- `renderList` is the per-item map over the array's elements. -/
theorem renderList_eq_map (opts : Options) :
    ∀ items : List Json,
      renderList opts items = items.map fun j => (isCollapsibleJ j, renderValue opts j) := by
  intro items
  induction items with
  | nil => rfl
  | cons j js ih => simp [renderList, ih]

/-- `renderEntries` is the per-entry map over the object's entries. -/
theorem renderEntries_eq_map (opts : Options) :
    ∀ entries : List (List Char × Json),
      renderEntries opts entries
        = entries.map fun e => (e.1, (isCollapsibleJ e.2, renderValue opts e.2)) := by
  intro entries
  induction entries with
  | nil => rfl
  | cons e es ih => simp [renderEntries, ih]

/-- A list of at most `size` elements forms a single chunk. -/
theorem chunksPos_single {α : Type} {l : List α} {s : Nat} (hl : l ≠ []) (hs : l.length ≤ s) :
    chunksPos l s = [l] := by
  have h0 : 0 < l.length := List.length_pos.mpr hl
  rw [chunksPos_eq, if_neg]
  · rw [List.take_of_length_le hs, List.drop_eq_nil_of_le hs, chunksPos_eq]
    simp
  · rintro (h | h)
    · exact hl (List.isEmpty_iff.mp h)
    · omega

/-- `stripList` distributes over concatenation. -/
theorem stripList_append (a b : List Dom) :
    stripList (a ++ b) = stripList a ++ stripList b := by
  induction a with
  | nil => rfl
  | cons d ds ih => simp [stripList, ih]

/-- Text content of an array list item with the (always-false) last flag:
the toggle anchor is empty, so only the item's own text and the trailing
comma remain. -/
theorem strip_mkLiArr (r : Bool × List Dom) :
    stripDom (mkLiArr r false) = stripList r.2 ++ [commaC] := by
  rcases r with ⟨b, ds⟩
  cases b <;> simp [mkLiArr, stripDom, stripList, stripList_append, toggleA]

/-- Text content of an object list item with the (always-false) last flag. -/
theorem strip_mkLiObj (opts : Options) (key : List Char) (r : Bool × List Dom) :
    stripDom (mkLiObj opts key r false)
      = keyRepr opts key ++ [colonC, spaceC] ++ stripList r.2 ++ [commaC] := by
  rcases r with ⟨b, ds⟩
  cases b <;> simp [mkLiObj, stripDom, stripList, stripList_append, toggleA]

/-- Inside a chunk that is fully below `clen`, every last-item flag
`j >= chunk.length` is false, so the scheduled nodes are the items in
order, each with a trailing comma. -/
theorem liRowArr_snd (L : Int) (i clen : Nat) :
    ∀ (c : List (Bool × List Dom)) (j : Nat), j + c.length ≤ clen →
      (liRowArr L i clen j c).map Prod.snd = c.map fun r => mkLiArr r false := by
  intro c
  induction c with
  | nil => intro j _; rfl
  | cons r rs ih =>
    intro j hj
    have hlt : j < clen := by
      have : rs.length + 1 = (r :: rs).length := by simp
      omega
    show (mkLiArr r (decide (clen ≤ j)) :: (liRowArr L i clen (j + 1) rs).map Prod.snd) = _
    rw [ih (j + 1) (by simp at hj ⊢; omega)]
    have : decide (clen ≤ j) = false := by simp; omega
    rw [this]
    rfl

/-- Same statement for the object branch. -/
theorem liRowObj_snd (opts : Options) (clen : Nat) :
    ∀ (c : List (List Char × (Bool × List Dom))) (j : Nat), j + c.length ≤ clen →
      (liRowObj opts clen j c).map Prod.snd
        = c.map fun e => mkLiObj opts e.1 e.2 false := by
  intro c
  induction c with
  | nil => intro j _; rfl
  | cons e es ih =>
    intro j hj
    have hlt : j < clen := by
      have : es.length + 1 = (e :: es).length := by simp
      omega
    show (mkLiObj opts e.1 e.2 (decide (clen ≤ j)) :: (liRowObj opts clen (j + 1) es).map Prod.snd) = _
    rw [ih (j + 1) (by simp at hj ⊢; omega)]
    have : decide (clen ≤ j) = false := by simp; omega
    rw [this]
    rfl

/-- Text content of a mapped list of DOM nodes. -/
theorem stripList_map {α : Type} (f : α → Dom) (l : List α) :
    stripList (l.map f) = l.flatMap fun x => stripDom (f x) := by
  induction l with
  | nil => rfl
  | cons x xs ih => simp [stripList, ih]

/-- The fully assembled array branch for a container that fits in a single
chunk: one chunk, monotone delays, so the eventual children are the items
in source order, each followed by a comma (the last-item flag is never
set), with the placeholder carrying the total count. -/
theorem assembleArr_single (opts : Options) (rendered : List (Bool × List Dom))
    (hne : rendered ≠ []) (hsz : (rendered.length : Int) ≤ opts.chunkSize)
    (hL : 0 ≤ opts.chunkLatency) :
    assembleArr opts rendered =
      [Dom.text [lbrkC],
       Dom.el olTag [nestCls] none false (rendered.map fun r => mkLiArr r false),
       phNode rendered.length, Dom.text [rbrkC]] := by
  have hpos : 0 < rendered.length := List.length_pos.mpr hne
  have hs : rendered.length ≤ opts.chunkSize.toNat := by omega
  have hchunks : chunksPos rendered opts.chunkSize.toNat = [rendered] :=
    chunksPos_single hne hs
  simp only [assembleArr, hchunks]
  have hemp : (([rendered] : List (List (Bool × List Dom))).isEmpty) = false := rfl
  rw [hemp]
  simp only [Bool.false_eq_true, if_false]
  have hregs : regsArr opts.chunkLatency 0 [rendered]
      = liRowArr opts.chunkLatency 0 rendered.length 0 rendered := by
    simp [regsArr]
  rw [hregs, timerSort_eq_of_mono _ (liRowArr_mono opts.chunkLatency hL 0 rendered.length rendered 0),
    liRowArr_snd opts.chunkLatency 0 rendered.length rendered 0 (by omega)]
  have hcount : countItems [rendered] = rendered.length := by
    simp [countItems]
  rw [hcount]
  rfl

/-- The fully assembled object branch for a container that fits in a
single chunk. -/
theorem assembleObj_single (opts : Options) (rendered : List (List Char × (Bool × List Dom)))
    (hne : rendered ≠ []) (hsz : (rendered.length : Int) ≤ opts.chunkSize)
    (hL : 0 ≤ opts.chunkLatency) :
    assembleObj opts rendered =
      [Dom.text [lcurlC],
       Dom.el ulTag [nestCls] none false (rendered.map fun e => mkLiObj opts e.1 e.2 false),
       phNode rendered.length, Dom.text [rcurlC]] := by
  have hpos : 0 < rendered.length := List.length_pos.mpr hne
  have hs : rendered.length ≤ opts.chunkSize.toNat := by omega
  have hchunks : chunksPos rendered opts.chunkSize.toNat = [rendered] :=
    chunksPos_single hne hs
  simp only [assembleObj, hchunks]
  have hemp : (([rendered] : List (List (List Char × (Bool × List Dom)))).isEmpty) = false := rfl
  rw [hemp]
  simp only [Bool.false_eq_true, if_false]
  have hregs : regsObj opts [rendered]
      = liRowObj opts rendered.length 0 rendered := by
    simp [regsObj]
  rw [hregs, timerSort_eq_of_mono _ (liRowObj_mono opts hL rendered.length rendered 0),
    liRowObj_snd opts rendered.length rendered 0 (by omega)]
  have hcount : countItems [rendered] = rendered.length := by
    simp [countItems]
  rw [hcount]
  rfl

/-- Shape of the assembled array branch for any non-empty input: shell
brackets, one nested container, and a placeholder whose count is the
total number of items (accumulated synchronously over all chunks). -/
theorem assembleArr_shape (opts : Options) (rendered : List (Bool × List Dom))
    (hne : rendered ≠ []) (hs : opts.chunkSize.toNat ≠ 0) :
    ∃ kids, assembleArr opts rendered =
      [Dom.text [lbrkC], Dom.el olTag [nestCls] none false kids,
       phNode rendered.length, Dom.text [rbrkC]] := by
  have hchunks : chunksPos rendered opts.chunkSize.toNat ≠ [] := chunksPos_ne_nil hne hs
  have hemp : (chunksPos rendered opts.chunkSize.toNat).isEmpty = false :=
    List.isEmpty_eq_false.mpr hchunks
  refine ⟨(timerSort (regsArr opts.chunkLatency 0 (chunksPos rendered opts.chunkSize.toNat))).map
    Prod.snd, ?_⟩
  simp only [assembleArr, hemp]
  rw [countItems_chunksPos opts.chunkSize.toNat (by omega) rendered]
  rfl

/-- Shape of the assembled object branch for any non-empty input. -/
theorem assembleObj_shape (opts : Options) (rendered : List (List Char × (Bool × List Dom)))
    (hne : rendered ≠ []) (hs : opts.chunkSize.toNat ≠ 0) :
    ∃ kids, assembleObj opts rendered =
      [Dom.text [lcurlC], Dom.el ulTag [nestCls] none false kids,
       phNode rendered.length, Dom.text [rcurlC]] := by
  have hchunks : chunksPos rendered opts.chunkSize.toNat ≠ [] := chunksPos_ne_nil hne hs
  have hemp : (chunksPos rendered opts.chunkSize.toNat).isEmpty = false :=
    List.isEmpty_eq_false.mpr hchunks
  refine ⟨(timerSort (regsObj opts (chunksPos rendered opts.chunkSize.toNat))).map Prod.snd, ?_⟩
  simp only [assembleObj, hemp]
  rw [countItems_chunksPos opts.chunkSize.toNat (by omega) rendered]
  rfl

/- ===== Claim C10 ===== -/

/-- C10: for every non-empty array or mapping rendered with the default
configuration, json2html appends — synchronously, during the initial
render pass — a placeholder-summary anchor as a sibling of the
nested-container, after it and before the closing bracket, whose text is
`<n> item(s)` where `n` is the container's total entry count (the `count`
variable is accumulated over all chunks before any deferred callback can
run, so it is the total, not the number of children inserted so far). -/
theorem c10_placeholder_total_count :
    (∀ items : List Json, items ≠ [] →
      ∃ kids, renderValue defaultOptions (Json.arr items) =
        [Dom.text [lbrkC], Dom.el olTag [nestCls] none false kids,
         phNode items.length, Dom.text [rbrkC]])
    ∧ (∀ entries : List (List Char × Json), entries ≠ [] →
      ∃ kids, renderValue defaultOptions (Json.obj entries) =
        [Dom.text [lcurlC], Dom.el ulTag [nestCls] none false kids,
         phNode entries.length, Dom.text [rcurlC]]) := by
  constructor
  · intro items hne
    have hlen : (renderList defaultOptions items).length = items.length := by
      rw [renderList_eq_map]; simp
    have hrne : renderList defaultOptions items ≠ [] := by
      intro h0
      apply hne
      have := congrArg List.length h0
      rw [hlen] at this
      exact List.eq_nil_of_length_eq_zero this
    have hshape := assembleArr_shape defaultOptions (renderList defaultOptions items) hrne
      (by decide)
    rw [hlen] at hshape
    exact hshape
  · intro entries hne
    have hlen : (renderEntries defaultOptions entries).length = entries.length := by
      rw [renderEntries_eq_map]; simp
    have hrne : renderEntries defaultOptions entries ≠ [] := by
      intro h0
      apply hne
      have := congrArg List.length h0
      rw [hlen] at this
      exact List.eq_nil_of_length_eq_zero this
    have hshape := assembleObj_shape defaultOptions (renderEntries defaultOptions entries) hrne
      (by decide)
    rw [hlen] at hshape
    have hbig : renderValue defaultOptions (Json.obj entries)
        = assembleObj defaultOptions (renderEntries defaultOptions entries) := by
      simp only [renderValue]
      rw [show defaultOptions.bigNumbers = false from rfl]
      rw [show (false && losslessLike entries) = false from rfl]
      rfl
    rw [hbig]
    exact hshape

/-- C10, witness: the theorem applied to a one-element array and a
one-entry object. -/
theorem c10_witness :
    (∃ kids, renderValue defaultOptions (Json.arr [Json.num 3]) =
      [Dom.text [lbrkC], Dom.el olTag [nestCls] none false kids,
       phNode 1, Dom.text [rbrkC]])
    ∧ (∃ kids, renderValue defaultOptions (Json.obj [([Char.ofNat 97], Json.null)]) =
      [Dom.text [lcurlC], Dom.el ulTag [nestCls] none false kids,
       phNode 1, Dom.text [rcurlC]]) :=
  ⟨c10_placeholder_total_count.1 [Json.num 3] (by simp),
   c10_placeholder_total_count.2 [([Char.ofNat 97], Json.null)] (by simp)⟩

/- ===== Claim C1 ===== -/

/-- For `bigNumbers` off (the default), the object branch always reaches
the generic assembly. -/
theorem renderValue_obj_eq (opts : Options) (h : opts.bigNumbers = false)
    (entries : List (List Char × Json)) :
    renderValue opts (Json.obj entries) = assembleObj opts (renderEntries opts entries) := by
  simp only [renderValue, h]
  rfl

/-- C1, counterexample: already for the one-element array `[1]` under the
default configuration, the concatenated leaf text of the rendered DOM
(after the scheduled insertion has run) is `[1,1 item]` — the deferred
`appendLI` puts a comma after the last item (its last-item flag
`j >= chunk.length` is never true) and the synchronously appended
placeholder contributes the text `1 item` before the closing bracket — and
that text is not a valid textual JSON representation of `[1]`. -/
theorem c1_counterexample :
    stripList (viewerDom defaultOptions (Json.arr [Json.num 1])) = String.data "[1,1 item]"
    ∧ ¬ specJsonRead (stripList (viewerDom defaultOptions (Json.arr [Json.num 1])))
        = some (Json.arr [Json.num 1]) := by
  constructor
  · decide
  · intro h
    have hnone : (specJsonRead (stripList (viewerDom defaultOptions
        (Json.arr [Json.num 1])))).isNone = true := by decide
    rw [h] at hnone
    simp at hnone

/-- C1, amended: under the default configuration the concatenated leaf
text of the rendered DOM (once all scheduled insertions have run) is, for
scalars, the JSON scalar text except that strings stay entity-escaped
(`htmlEscape` is applied and never reversed, since the entities are stored
in `textContent`); and for a non-empty array or mapping of at most
`chunkSize` entries it is the bracketed entry texts where every entry —
including the last — carries a trailing comma, followed by the
placeholder's `<n> item(s)` text before the closing bracket.  (Keys are
quoted since `withQuotes` defaults to true; a URL string renders as a link
with the same quoted text.)  In general this text is not valid JSON. -/
theorem c1_stripped_text :
    (stripList (viewerDom defaultOptions Json.null) = String.data "null")
    ∧ (∀ n : Int, stripList (viewerDom defaultOptions (Json.num n)) = (toString n).data)
    ∧ (∀ b : Bool, stripList (viewerDom defaultOptions (Json.bool b)) = (toString b).data)
    ∧ (∀ s : List Char, stripList (viewerDom defaultOptions (Json.str s))
        = [quotC] ++ htmlEscape s ++ [quotC])
    ∧ (∀ items : List Json, items ≠ [] → items.length ≤ 999 →
        stripList (viewerDom defaultOptions (Json.arr items))
          = [lbrkC]
            ++ (items.flatMap fun it => stripList (renderValue defaultOptions it) ++ [commaC])
            ++ countText items.length ++ [rbrkC])
    ∧ (∀ entries : List (List Char × Json), entries ≠ [] → entries.length ≤ 999 →
        stripList (viewerDom defaultOptions (Json.obj entries))
          = [lcurlC]
            ++ (entries.flatMap fun e =>
                  [quotC] ++ htmlEscape e.1 ++ [quotC] ++ [colonC, spaceC]
                    ++ stripList (renderValue defaultOptions e.2) ++ [commaC])
            ++ countText entries.length ++ [rcurlC]) := by
  refine ⟨by decide, ?_, ?_, ?_, ?_, ?_⟩
  · intro n
    simp [viewerDom, renderValue, isCollapsibleJ, stripList, stripDom, mkSpan]
  · intro b
    simp [viewerDom, renderValue, isCollapsibleJ, stripList, stripDom, mkSpan]
  · intro s
    by_cases h : defaultOptions.withLinks && isUrl (htmlEscape s)
    · simp [viewerDom, renderValue, isCollapsibleJ, h, stripList, stripDom, mkSpan]
    · simp [viewerDom, renderValue, isCollapsibleJ, h, stripList, stripDom, mkSpan]
  · intro items hne hlen
    have hcoll : isCollapsibleJ (Json.arr items) = true := by
      cases items with
      | nil => exact absurd rfl hne
      | cons j js => rfl
    have hrlen : (renderList defaultOptions items).length = items.length := by
      rw [renderList_eq_map]; simp
    have hrne : renderList defaultOptions items ≠ [] := by
      intro h0
      apply hne
      have := congrArg List.length h0
      rw [hrlen] at this
      exact List.eq_nil_of_length_eq_zero this
    have hsingle := assembleArr_single defaultOptions (renderList defaultOptions items) hrne
      (by rw [hrlen]; show (items.length : Int) ≤ 999; omega) (by decide)
    have hrv : renderValue defaultOptions (Json.arr items)
        = assembleArr defaultOptions (renderList defaultOptions items) := rfl
    simp only [viewerDom, hcoll, Bool.and_true]
    rw [show (defaultOptions.rootCollapsable : Bool) = true from rfl]
    simp only [if_true, hrv, hsingle, stripList_append]
    rw [hrlen]
    simp only [stripList, stripDom, stripList_append, toggleA, phNode]
    rw [stripList_map, renderList_eq_map, List.flatMap_map]
    have hstrip : ∀ it : Json,
        stripDom (mkLiArr (isCollapsibleJ it, renderValue defaultOptions it) false)
          = stripList (renderValue defaultOptions it) ++ [commaC] := fun it =>
      strip_mkLiArr (isCollapsibleJ it, renderValue defaultOptions it)
    simp only [Function.comp_def, hstrip]
    simp [stripList, stripDom]
  · intro entries hne hlen
    have hcoll : isCollapsibleJ (Json.obj entries) = true := by
      cases entries with
      | nil => exact absurd rfl hne
      | cons e es => rfl
    have hrlen : (renderEntries defaultOptions entries).length = entries.length := by
      rw [renderEntries_eq_map]; simp
    have hrne : renderEntries defaultOptions entries ≠ [] := by
      intro h0
      apply hne
      have := congrArg List.length h0
      rw [hrlen] at this
      exact List.eq_nil_of_length_eq_zero this
    have hsingle := assembleObj_single defaultOptions (renderEntries defaultOptions entries) hrne
      (by rw [hrlen]; show (entries.length : Int) ≤ 999; omega) (by decide)
    have hrv := renderValue_obj_eq defaultOptions rfl entries
    simp only [viewerDom, hcoll, Bool.and_true]
    rw [show (defaultOptions.rootCollapsable : Bool) = true from rfl]
    simp only [if_true, hrv, hsingle, stripList_append]
    rw [hrlen]
    simp only [stripList, stripDom, stripList_append, toggleA, phNode]
    rw [stripList_map, renderEntries_eq_map, List.flatMap_map]
    have hstrip : ∀ e : List Char × Json,
        stripDom (mkLiObj defaultOptions e.1 (isCollapsibleJ e.2, renderValue defaultOptions e.2) false)
          = keyRepr defaultOptions e.1 ++ [colonC, spaceC]
            ++ stripList (renderValue defaultOptions e.2) ++ [commaC] := fun e =>
      strip_mkLiObj defaultOptions e.1 (isCollapsibleJ e.2, renderValue defaultOptions e.2)
    simp only [Function.comp_def, hstrip]
    have hkey : ∀ k : List Char, keyRepr defaultOptions k = [quotC] ++ htmlEscape k ++ [quotC] := by
      intro k
      rw [keyRepr, if_pos]
      rfl
    simp only [hkey]
    simp [stripList, stripDom, List.append_assoc]

/-- C1, witness: the amended container clauses applied at concrete
inputs. -/
theorem c1_witness :
    stripList (viewerDom defaultOptions (Json.arr [Json.bool true]))
      = [lbrkC]
        ++ ([Json.bool true].flatMap fun it =>
              stripList (renderValue defaultOptions it) ++ [commaC])
        ++ countText ([Json.bool true].length) ++ [rbrkC]
    ∧ stripList (viewerDom defaultOptions (Json.obj [([Char.ofNat 98], Json.null)]))
      = [lcurlC]
        ++ ([([Char.ofNat 98], Json.null)].flatMap fun e =>
              [quotC] ++ htmlEscape e.1 ++ [quotC] ++ [colonC, spaceC]
                ++ stripList (renderValue defaultOptions e.2) ++ [commaC])
        ++ countText ([([Char.ofNat 98], Json.null)].length) ++ [rcurlC] :=
  ⟨c1_stripped_text.2.2.2.2.1 [Json.bool true] (by simp) (by norm_num),
   c1_stripped_text.2.2.2.2.2 [([Char.ofNat 98], Json.null)] (by simp) (by norm_num)⟩

/- ===== Claim C2 ===== -/

/-- Options with `chunkSize` 3 and the default latency, used to exhibit a
multi-chunk container. -/
def optsChunk3 : Options := ⟨false, true, true, true, false, 3, 33⟩

/-- Six scalar items: two full chunks of three under `chunkSize` 3. -/
def sixNums : List Json :=
  [Json.num 0, Json.num 1, Json.num 2, Json.num 3, Json.num 4, Json.num 5]

/-- C2, counterexample: the claim asserts that the delay assigned to the
entry at position `p` is monotonically non-decreasing in `p` across chunk
boundaries.  For a six-element array with `chunkSize` 3 and latency 33 the
array branch assigns `latency * (i + j)` (chunk index plus in-chunk
index), i.e. delays `[0, 33, 66, 33, 66, 99]` by position: position 3
(first entry of the second chunk) gets delay 33, strictly less than the 66
of position 2, so the delays are not monotone and the timer queue fires
position 3 before position 2. -/
theorem c2_counterexample :
    (regsArr optsChunk3.chunkLatency 0
        (chunksPos (renderList optsChunk3 sixNums) optsChunk3.chunkSize.toNat)).map Prod.fst
      = [0, 33, 66, 33, 66, 99]
    ∧ keysMonoB (regsArr optsChunk3.chunkLatency 0
        (chunksPos (renderList optsChunk3 sixNums) optsChunk3.chunkSize.toNat)) = false := by
  constructor
  · decide
  · decide

/-- C2, amended: within a single chunk the assigned delays are monotone
non-decreasing in the entry position — the array branch uses
`latency * (chunkIndex + inChunkIndex)` and the object branch
`latency * inChunkIndex` — and a registration list with non-decreasing
delays is fired by the timer queue in registration order, so containers
that fit in one chunk are populated in source order.  Across chunk
boundaries the delay can decrease (see the counterexample), so no
cross-chunk ordering is guaranteed. -/
theorem c2_delays_mono_within_chunk :
    (∀ (L : Int) (i clen : Nat) (c : List (Bool × List Dom)), 0 ≤ L →
      keysMonoB (liRowArr L i clen 0 c) = true)
    ∧ (∀ (opts : Options) (clen : Nat) (c : List (List Char × (Bool × List Dom))),
        0 ≤ opts.chunkLatency → keysMonoB (liRowObj opts clen 0 c) = true)
    ∧ (∀ rs : List (Int × Dom), keysMonoB rs = true → timerSort rs = rs) :=
  ⟨fun L i clen c hL => liRowArr_mono L hL i clen c 0,
   fun opts clen c hL => liRowObj_mono opts hL clen c 0,
   timerSort_eq_of_mono⟩

/-- C2, witness: the amended theorem applied at concrete inputs. -/
theorem c2_witness :
    keysMonoB (liRowArr 33 1 2 0 [(false, []), (false, [])]) = true
    ∧ keysMonoB (liRowObj optsChunk3 2 0 [([], (false, [])), ([], (false, []))]) = true
    ∧ timerSort [((5 : Int), Dom.text []), ((5 : Int), Dom.text [lbrkC])]
        = [((5 : Int), Dom.text []), ((5 : Int), Dom.text [lbrkC])] :=
  ⟨c2_delays_mono_within_chunk.1 33 1 2 [(false, []), (false, [])] (by omega),
   c2_delays_mono_within_chunk.2.1 optsChunk3 2 [([], (false, [])), ([], (false, []))] (by decide),
   c2_delays_mono_within_chunk.2.2 _ (by decide)⟩

/- ===== Claim C3 ===== -/

/-- C3: the last-item flag `j >= chunk.length` passed by json2html to
`appendLI` compares the in-chunk index against the chunk length, which is
never true, so — contrary to `appendLI`'s own documentation of `isLast`
("Whether this is the last item in the list (no trailing comma)") and to
the claim — every item, including the one at the final position, receives
a trailing comma.  Evaluated on the array `[4, 2]`: both list items carry
the `false` last-item flag and the stripped text shows the comma after the
final item `2`. -/
theorem c3_trailing_comma_bug :
    renderValue defaultOptions (Json.arr [Json.num 4, Json.num 2])
      = [Dom.text [lbrkC],
         Dom.el olTag [nestCls] none false
           [mkLiArr (false, [mkSpan literalCls [Char.ofNat 52]]) false,
            mkLiArr (false, [mkSpan literalCls [Char.ofNat 50]]) false],
         phNode 2, Dom.text [rbrkC]]
    ∧ stripList (renderValue defaultOptions (Json.arr [Json.num 4, Json.num 2]))
      = String.data "[4,2,2 items]" := by
  constructor
  · rfl
  · decide

/- ===== Claim C8 ===== -/

/-- C8, counterexample: the claim asserts that literal quote characters
inside a non-link string are further escaped to a backslash-quote
sequence.  For the one-character string consisting of a double quote, the
DOM renderer of src/json.js produces the span text `"&quot;"` — the quote
becomes the `&quot;` entity via `htmlEscape` and no backslash occurs
anywhere in the text.  (The backslash-quote refinement exists only in the
legacy string-building renderer of src/unnamed/part_001.) -/
theorem c8_counterexample :
    stripList (renderValue defaultOptions (Json.str [quotC]))
      = [quotC] ++ quotEnt ++ [quotC]
    ∧ bslashC ∉ stripList (renderValue defaultOptions (Json.str [quotC])) := by
  constructor
  · decide
  · decide

/-- C8, amended: a string that is not rendered as a link becomes a
`byJSONstring` span whose text is the HTML-escaped string wrapped in
double quotes; quote characters inside appear as the `&quot;` entity and
no backslash escaping is applied (the renderer introduces no backslash). -/
theorem c8_string_span (opts : Options) (s : List Char)
    (h : (opts.withLinks && isUrl (htmlEscape s)) = false) (hb : bslashC ∉ s) :
    renderValue opts (Json.str s) = [mkSpan stringCls ([quotC] ++ htmlEscape s ++ [quotC])]
    ∧ bslashC ∉ stripList (renderValue opts (Json.str s)) := by
  have hrv : renderValue opts (Json.str s)
      = [mkSpan stringCls ([quotC] ++ htmlEscape s ++ [quotC])] := by
    simp [renderValue, h]
  refine ⟨hrv, ?_⟩
  rw [hrv]
  have h1 : stripList [mkSpan stringCls ([quotC] ++ htmlEscape s ++ [quotC])]
      = [quotC] ++ htmlEscape s ++ [quotC] := by
    simp [mkSpan, stripList, stripDom]
  rw [h1]
  intro hmem
  rcases List.mem_append.mp hmem with hmem | hmem
  · rcases List.mem_append.mp hmem with hmem | hmem
    · revert hmem; decide
    · exact htmlEscape_no_backslash hb hmem
  · revert hmem; decide

/-- C8, witness: the amended theorem applied at a concrete non-URL,
backslash-free string. -/
theorem c8_witness :
    renderValue defaultOptions (Json.str [ltC])
      = [mkSpan stringCls ([quotC] ++ htmlEscape [ltC] ++ [quotC])]
    ∧ bslashC ∉ stripList (renderValue defaultOptions (Json.str [ltC])) :=
  c8_string_span defaultOptions [ltC] (by decide) (by decide)

/- ===== Sibling search and the collapse controller ===== -/

/-- An element as seen by the sibling search: its id and its class list.
(`previousElementSibling`/`nextElementSibling` skip text nodes, so only
elements appear here.) -/
structure SElem where
  id : List Char
  classes : List (List Char)
deriving DecidableEq

/-- The match test of `getSiblingByIdOrClass` (src/json.js line 41):
`sibling.id === match || sibling.classList.contains(match)`. -/
def matchElem (e : SElem) (m : List Char) : Bool :=
  e.id == m || e.classes.contains m

/-- Walk the preceding siblings nearest-first (src/json.js lines 39-46). -/
def findPrev (sibs : List SElem) (pos : Nat) (m : List Char) : Option Nat :=
  (List.range pos).reverse.find? fun k =>
    match sibs.get? k with
    | some e => matchElem e m
    | none => false

/-- Walk the following siblings nearest-first (src/json.js lines 48-55). -/
def findNext (sibs : List SElem) (pos : Nat) (m : List Char) : Option Nat :=
  (List.range' (pos + 1) (sibs.length - (pos + 1))).find? fun k =>
    match sibs.get? k with
    | some e => matchElem e m
    | none => false

/-- src/json.js lines 36-57: `getSiblingByIdOrClass` — preceding siblings
first, then following siblings; `none` when nothing matches. -/
def getSiblingByIdOrClass (sibs : List SElem) (pos : Nat) (m : List Char) : Option Nat :=
  match findPrev sibs pos m with
  | some k => some k
  | none => findNext sibs pos m

/-- `classList.toggle(c)`: remove the class when present, append it
otherwise. -/
def toggleClassC (c : List Char) (e : SElem) : SElem :=
  if e.classes.contains c then ⟨e.id, e.classes.filter fun x => !(x == c)⟩
  else ⟨e.id, e.classes ++ [c]⟩

/-- Apply a function to the element at one position. -/
def modifyAt (f : SElem → SElem) : List SElem → Nat → List SElem
  | [], _ => []
  | e :: es, 0 => f e :: es
  | e :: es, k + 1 => e :: modifyAt f es k

/-- The click handler installed by `addToggleListener` (src/json.js lines
90-103), acting on the sibling list of the clicked toggle: first toggle
the target's own `collapsed` class, then look for the `byJSONnest`
sibling — on failure only log and return — then toggle its `collapsed`
class and, when a `byJSONplaceholder` sibling exists, toggle that one's
`collapsed` class as well. -/
def toggleHandlerModel (sibs : List SElem) (pos : Nat) : List SElem :=
  let s1 := modifyAt (toggleClassC collapsedCls) sibs pos
  match getSiblingByIdOrClass s1 pos nestCls with
  | none => s1
  | some ni =>
    let s2 := modifyAt (toggleClassC collapsedCls) s1 ni
    match getSiblingByIdOrClass s2 pos placeholderCls with
    | none => s2
    | some pi => modifyAt (toggleClassC collapsedCls) s2 pi

/-- The click handler installed by `addPlaceholderListener` (src/json.js
lines 75-82): find the `byJSONtoggle` sibling and delegate the click to
it. -/
def placeholderHandlerModel (sibs : List SElem) (pos : Nat) : List SElem :=
  match getSiblingByIdOrClass sibs pos toggleCls with
  | some ti => toggleHandlerModel sibs ti
  | none => sibs

/-- `modifyAt` leaves every other position unchanged. -/
theorem modifyAt_get_ne (f : SElem → SElem) :
    ∀ (l : List SElem) (i k : Nat), k ≠ i → (modifyAt f l i).get? k = l.get? k := by
  intro l
  induction l with
  | nil => intro i k _; cases i <;> rfl
  | cons e es ih =>
    intro i k hk
    cases i with
    | zero =>
      cases k with
      | zero => exact absurd rfl hk
      | succ k => rfl
    | succ i =>
      cases k with
      | zero => rfl
      | succ k =>
        show (modifyAt f es i).get? k = es.get? k
        exact ih i k (fun h => hk (by rw [h]))

/- ===== Claim C5 ===== -/

/-- A toggle control with no siblings at all (in particular no
nested-container sibling). -/
def loneToggle : SElem := ⟨[], [toggleCls]⟩

/-- C5, counterexample: the claim asserts that when no nested-container
sibling is found, all visible state — including the toggle control's own
collapsed indicator — is left unchanged.  But the handler toggles the
target's own `collapsed` class before looking for the sibling
(src/json.js line 93 precedes the lookup on line 95), so a toggle with no
`byJSONnest` sibling still ends up with its indicator flipped: the state
is not unchanged. -/
theorem c5_counterexample : toggleHandlerModel [loneToggle] 0 ≠ [loneToggle] := by
  decide

/-- C5, amended: when the nested-container lookup fails, the transition is
abandoned with only a diagnostic log — every sibling other than the
clicked toggle is left untouched — but the toggle control's own
`collapsed` indicator has already been toggled before the lookup and
remains flipped. -/
theorem c5_missing_nest_aborts (sibs : List SElem) (pos : Nat)
    (h : getSiblingByIdOrClass (modifyAt (toggleClassC collapsedCls) sibs pos) pos nestCls
      = none) :
    toggleHandlerModel sibs pos = modifyAt (toggleClassC collapsedCls) sibs pos
    ∧ ∀ k, k ≠ pos → (toggleHandlerModel sibs pos).get? k = sibs.get? k := by
  have h1 : toggleHandlerModel sibs pos = modifyAt (toggleClassC collapsedCls) sibs pos := by
    unfold toggleHandlerModel
    simp only []
    rw [h]
  exact ⟨h1, fun k hk => by rw [h1]; exact modifyAt_get_ne _ sibs pos k hk⟩

/-- C5, witness: the amended theorem applied to a lone toggle control. -/
theorem c5_witness :
    toggleHandlerModel [loneToggle] 0 = modifyAt (toggleClassC collapsedCls) [loneToggle] 0
    ∧ ∀ k, k ≠ 0 → (toggleHandlerModel [loneToggle] 0).get? k = [loneToggle].get? k :=
  c5_missing_nest_aborts [loneToggle] 0 (by decide)

/- ===== Claim C4 ===== -/

/-- Number of expanded (not marked collapsed) nested-containers among the
given sibling nodes. -/
def presentExpandedNest (ds : List Dom) : Nat :=
  (ds.filter fun d => hasClassWithout d nestCls collapsedCls).length

/-- Number of placeholder-summary anchors among the given sibling nodes. -/
def presentPlaceholder (ds : List Dom) : Nat :=
  (ds.filter fun d => hasClass d placeholderCls).length

/-- C4, counterexample: the claim asserts that exactly one of the expanded
nested-container and the placeholder-summary element is present at any
time.  Already in the initial render of the array `[1]` (a reachable
state: the empty sequence of activations) json2html has appended both the
expanded `ol.byJSONnest` and the `byJSONplaceholder` anchor as siblings:
both are present simultaneously, so the claimed invariant fails (the
placeholder is created at render time, not on collapse, and expansion
never removes it — the handler only toggles its `collapsed` class). -/
theorem c4_counterexample :
    presentExpandedNest (renderValue defaultOptions (Json.arr [Json.num 1])) = 1
    ∧ presentPlaceholder (renderValue defaultOptions (Json.arr [Json.num 1])) = 1
    ∧ ¬ (presentExpandedNest (renderValue defaultOptions (Json.arr [Json.num 1]))
          + presentPlaceholder (renderValue defaultOptions (Json.arr [Json.num 1])) = 1) := by
  refine ⟨by decide, by decide, by decide⟩

/-- The element siblings of a collapsible node right after render:
toggle anchor, nested-container, placeholder anchor (text nodes are
skipped by the sibling walk). -/
def c4init : List SElem :=
  [⟨[], [toggleCls]⟩, ⟨[], [nestCls]⟩, ⟨[], [placeholderCls]⟩]

/-- The same siblings in the collapsed state: all three carry the
`collapsed` class. -/
def c4collapsed : List SElem :=
  [⟨[], [toggleCls, collapsedCls]⟩, ⟨[], [nestCls, collapsedCls]⟩,
   ⟨[], [placeholderCls, collapsedCls]⟩]

/-- One user activation: `true` clicks the toggle control (position 0),
`false` activates the placeholder (position 2), which delegates to the
toggle. -/
def c4step (s : List SElem) (a : Bool) : List SElem :=
  if a then toggleHandlerModel s 0 else placeholderHandlerModel s 2

/-- The sibling state after a sequence of activations (most recent
first). -/
def c4run : List Bool → List SElem
  | [] => c4init
  | a :: acts => c4step (c4run acts) a

/-- Every reachable state is the expanded or the collapsed one. -/
theorem c4run_dichotomy : ∀ acts : List Bool, c4run acts = c4init ∨ c4run acts = c4collapsed := by
  intro acts
  induction acts with
  | nil => exact Or.inl rfl
  | cons a acts ih =>
    have t1 : c4step c4init true = c4collapsed := by decide
    have t2 : c4step c4init false = c4collapsed := by decide
    have t3 : c4step c4collapsed true = c4init := by decide
    have t4 : c4step c4collapsed false = c4init := by decide
    show c4step (c4run acts) a = c4init ∨ c4step (c4run acts) a = c4collapsed
    rcases ih with h | h <;> rw [h] <;> cases a
    · exact Or.inr t2
    · exact Or.inr t1
    · exact Or.inl t4
    · exact Or.inl t3

/-- Whether some sibling carries the given class. -/
def anyWithClass (s : List SElem) (c : List Char) : Bool :=
  s.any fun e => e.classes.contains c

/-- Whether some sibling carries both given classes. -/
def anyWithClasses (s : List SElem) (c d : List Char) : Bool :=
  s.any fun e => e.classes.contains c && e.classes.contains d

/-- C4, amended: the nested-container and the placeholder-summary are both
present in the sibling list in every state reachable by any sequence of
toggle-control and placeholder activations (expansion never removes the
placeholder; nothing is ever removed), and the handler keeps their
`collapsed` indicators synchronized: the nested-container carries
`collapsed` exactly when the placeholder does, so the stylesheet can
display exactly one of the two. -/
theorem c4_nest_placeholder_sync :
    ∀ acts : List Bool,
      anyWithClass (c4run acts) nestCls = true
      ∧ anyWithClass (c4run acts) placeholderCls = true
      ∧ anyWithClasses (c4run acts) nestCls collapsedCls
          = anyWithClasses (c4run acts) placeholderCls collapsedCls := by
  intro acts
  rcases c4run_dichotomy acts with h | h <;> rw [h]
  · exact ⟨by decide, by decide, by decide⟩
  · exact ⟨by decide, by decide, by decide⟩

/-- C4, witness: the amended invariant after a single toggle activation. -/
theorem c4_witness :
    anyWithClass (c4run [true]) nestCls = true
    ∧ anyWithClass (c4run [true]) placeholderCls = true
    ∧ anyWithClasses (c4run [true]) nestCls collapsedCls
        = anyWithClasses (c4run [true]) placeholderCls collapsedCls :=
  c4_nest_placeholder_sync [true]
